import Mathlib

/-!
Verification development for the PM_token_decoration repository
(src/commented_token_custom.py).

The repository itself contains two functions, `get_decorations` and `apply`,
which orchestrate a token-replay decoration pipeline whose stages
(variant indexing, token replay, element statistics, aggregation and the
decoration export used by the visualizer) live in the pm4py library and are
therefore not part of the repository's own source.  Those stages are modelled
here from the specification (each such definition carries a doc comment
starting `Modelled from the spec:`); `get_decorations` and `apply` themselves
follow the source file line by line.

Numeric samples and timestamps are rationals; markings are lists of token
counts indexed by place number.
-/

namespace TokenDecoration

/-- An event of a trace: an activity label and a timestamp
(the configured activity key and timestamp key select these fields). -/
structure Event where
  activity : String
  ts : ℚ
deriving DecidableEq

/-- A trace is an ordered list of events; a log an ordered list of traces. -/
abbrev Trace := List Event

abbrev Log := List Trace

/-- Modelled from the spec: a Petri-net transition (4.2-style arena pattern):
a unique name, an optional visible activity label (unlabeled transitions are
invisible), and weighted preset/postset arcs given as (place index, weight). -/
structure Transition where
  name : String
  label : Option String
  pre : List (Nat × Nat)
  post : List (Nat × Nat)
deriving DecidableEq

/-- Modelled from the spec: a Petri net as flat collections of places
(identified by indices below `numPlaces`) and transitions. -/
structure PetriNet where
  numPlaces : Nat
  transitions : List Transition
deriving DecidableEq

/-- A marking: token count per place index. -/
abbrev Marking := List Nat

/-- Token count of a place in a marking (0 for places beyond the list). -/
def getTok (m : Marking) (p : Nat) : Nat := m.getD p 0

/-- Set the token count of a place. -/
def setTok (m : Marking) (p v : Nat) : Marking := m.set p v

/-- Modelled from the spec: whether every preset place of a transition holds
at least the arc weight in tokens. -/
def presetSatisfied (m : Marking) (t : Transition) : Bool :=
  t.pre.all (fun pw => decide (pw.2 ≤ getTok m pw.1))

/-- Whether some transition of the net carries the given activity label. -/
def hasLabel (net : PetriNet) (a : String) : Bool :=
  net.transitions.any (fun t => decide (t.label = some a))

/-- Modelled from the spec: transition selection for an activity — among the
transitions whose label matches, prefer one whose full preset is already
satisfied, tie-broken by declaration order; otherwise the first match. -/
def findTransition (net : PetriNet) (m : Marking) (a : String) : Option Transition :=
  let cands := net.transitions.filter (fun t => decide (t.label = some a))
  match cands.find? (fun t => presetSatisfied m t) with
  | some t => some t
  | none => cands.head?

/-- Modelled from the spec: marking update of a forced firing — top up each
deficient preset place to the required level, then consume the preset arc
weights and produce the postset arc weights. -/
def fireMarking (t : Transition) (m : Marking) : Marking :=
  let m1 := t.pre.foldl
    (fun m pw => if getTok m pw.1 < pw.2 then setTok m pw.1 pw.2 else m) m
  let m2 := t.pre.foldl
    (fun m pw => setTok m pw.1 (getTok m pw.1 - pw.2)) m1
  t.post.foldl (fun m pw => setTok m pw.1 (getTok m pw.1 + pw.2)) m2

/-- Modelled from the spec: the missing tokens recorded by firing a transition
in a marking — the deficit of each insufficiently marked preset place. -/
def transMissing (t : Transition) (m : Marking) : Nat :=
  t.pre.foldl (fun acc pw => acc + (pw.2 - getTok m pw.1)) 0

/-- Total preset arc weight of a transition (tokens consumed by one firing). -/
def preWeight (t : Transition) : Nat := (t.pre.map Prod.snd).sum

/-- Total postset arc weight of a transition (tokens produced by one firing). -/
def postWeight (t : Transition) : Nat := (t.post.map Prod.snd).sum

/-- Modelled from the spec: running state of one replay — the working marking
and the consumed/produced/missing/remaining counters. -/
structure ReplayState where
  marking : Marking
  consumed : Nat
  produced : Nat
  missing : Nat
  remaining : Nat
deriving DecidableEq

/-- Modelled from the spec: one replay step — fire the selected transition
under the forced-firing policy; an activity with no matching transition label
is skipped and the state is unchanged (the anomaly is recorded separately). -/
def replayActivity (net : PetriNet) (s : ReplayState) (a : String) : ReplayState :=
  match findTransition net s.marking a with
  | none => s
  | some t =>
    { s with
      marking := fireMarking t s.marking
      missing := s.missing + transMissing t s.marking
      consumed := s.consumed + preWeight t
      produced := s.produced + postWeight t }

/-- Modelled from the spec: terminal-state bookkeeping — tokens beyond what
the final marking requires are recorded as remaining, any shortfall as
missing. -/
def closeReplay (fm : Marking) (s : ReplayState) : ReplayState :=
  (List.range (max s.marking.length fm.length)).foldl
    (fun s p =>
      let h := getTok s.marking p
      let need := fm.getD p 0
      if need ≤ h then { s with remaining := s.remaining + (h - need) }
      else { s with missing := s.missing + (need - h) }) s

/-- Modelled from the spec: per-replay result — the final counters, the
per-trace list of unmatched-activity anomalies, and the boolean fitness
flag (missing equal zero and remaining equal zero). -/
structure ReplayResult where
  consumed : Nat
  produced : Nat
  missing : Nat
  remaining : Nat
  anomalies : List String
  trace_is_fit : Bool
deriving DecidableEq

/-- The counter/fitness part of a replay result (everything but the
anomaly list). -/
def ReplayResult.counters (r : ReplayResult) : Nat × Nat × Nat × Nat × Bool :=
  (r.consumed, r.produced, r.missing, r.remaining, r.trace_is_fit)

/-- Modelled from the spec: token replay of one trace — fold the replay step
over the trace's activity sequence from the initial marking, close against
the final marking, record unmatched activities as per-trace anomalies and
set the fitness flag. -/
def replayTrace (net : PetriNet) (im fm : Marking) (tr : Trace) : ReplayResult :=
  let s := closeReplay fm
    ((tr.map Event.activity).foldl (replayActivity net) ⟨im, 0, 0, 0, 0⟩)
  { consumed := s.consumed
    produced := s.produced
    missing := s.missing
    remaining := s.remaining
    anomalies := (tr.map Event.activity).filter (fun a => !hasLabel net a)
    trace_is_fit := decide (s.missing = 0) && decide (s.remaining = 0) }

/-- Identifier of a decorated model element: a place (by index) or a
transition (by its unique name). -/
inductive ElemId where
  | place : Nat → ElemId
  | trans : String → ElemId
deriving DecidableEq

/-- The representation measure to put on the process model
(the `measure` string argument of the source: frequency, performance or
custom). -/
inductive RepMeasure where
  | frequency
  | performance
  | custom
deriving DecidableEq

/-- The aggregation measure applied to an element's pooled sample list. -/
inductive AggMeasure where
  | min
  | max
  | mean
  | median
  | sum
deriving DecidableEq

/-- The hidden-transition timing policy (the `ht_perf_method` string argument
of the source: first or last). -/
inductive HTPerfMethod where
  | first
  | last
deriving DecidableEq

/-- Modelled from the spec: per-trace sample collection state — the working
marking, the last time each place became marked, and the frequency and
performance samples emitted so far, tagged by element id. -/
structure TraceCollect where
  marking : Marking
  lastTime : List ℚ
  freq : List (ElemId × ℚ)
  perf : List (ElemId × ℚ)
deriving DecidableEq

/-- Modelled from the spec: the element-statistics step for one event —
a matched firing emits a frequency sample of 1 for the fired transition and
each preset/postset place, and a performance sample per consumed preset place
(elapsed time since that place last became marked); unmatched events are
skipped. -/
def collectEvent (net : PetriNet) (c : TraceCollect) (e : Event) : TraceCollect :=
  match findTransition net c.marking e.activity with
  | none => c
  | some t =>
    { marking := fireMarking t c.marking
      lastTime := t.post.foldl (fun lt pw => lt.set pw.1 e.ts) c.lastTime
      freq := c.freq ++ (ElemId.trans t.name, (1 : ℚ)) ::
        (t.pre ++ t.post).map (fun pw => (ElemId.place pw.1, (1 : ℚ)))
      perf := c.perf ++ t.pre.map
        (fun pw => (ElemId.place pw.1, e.ts - c.lastTime.getD pw.1 0)) }

/-- Modelled from the spec: sample collection for one trace, starting from the
initial marking with every place timestamped 0. -/
def collectTrace (net : PetriNet) (im : Marking) (tr : Trace) : TraceCollect :=
  tr.foldl (collectEvent net) ⟨im, List.replicate net.numPlaces 0, [], []⟩

/-- The pooled sample values attached to one element id in a sample list. -/
def samplesFor (samples : List (ElemId × ℚ)) (e : ElemId) : List ℚ :=
  (samples.filter (fun s => decide (s.1 = e))).map Prod.snd

/-- All decoratable element ids of a net: its places and its transitions. -/
def elementIds (net : PetriNet) : List ElemId :=
  (List.range net.numPlaces).map ElemId.place ++
    net.transitions.map (fun t => ElemId.trans t.name)

/-- Modelled from the spec: per-element pooled sample lists — a frequency
sample list and a performance sample list per element. -/
structure ElementStat where
  freqSamples : List ℚ
  perfSamples : List ℚ
deriving DecidableEq

/-- Modelled from the spec: `performance_map.single_element_statistics` —
each trace's replay is walked independently and the per-trace samples are
pooled per element id.  Hidden-transition insertion is not modelled by this
engine, so the `ht_perf_method` policy (modelled separately by
`assignHiddenTimestamp`) does not alter the collected samples here. -/
def single_element_statistics (net : PetriNet) (im : Marking) (log : Log)
    (ht_perf_method : HTPerfMethod) : List (ElemId × ElementStat) :=
  let _ := ht_perf_method
  let fs := (log.map (fun tr => (collectTrace net im tr).freq)).flatten
  let ps := (log.map (fun tr => (collectTrace net im tr).perf)).flatten
  (elementIds net).map (fun e => (e, ⟨samplesFor fs e, samplesFor ps e⟩))

/-- Sorted copy of a sample list (nondecreasing). -/
def sortQ (l : List ℚ) : List ℚ := l.insertionSort (· ≤ ·)

/-- Modelled from the spec: the median of a sample list — the middle element
of the sorted list, or the average of the two middle elements for an even
length (0 on the empty list, which aggregation never reaches). -/
def medianQ (l : List ℚ) : ℚ :=
  let s := sortQ l
  let n := s.length
  if n = 0 then 0
  else if n % 2 = 1 then s.getD (n / 2) 0
  else (s.getD (n / 2 - 1) 0 + s.getD (n / 2) 0) / 2

/-- Modelled from the spec: applying one aggregation measure to a pooled
sample list. -/
def aggApply : AggMeasure → List ℚ → ℚ
  | .min, l => (sortQ l).headD 0
  | .max, l => (sortQ l).getLastD 0
  | .mean, l => l.sum / (l.length : ℚ)
  | .median, l => medianQ l
  | .sum, l => l.sum

/-- Modelled from the spec: the aggregation measure actually applied when the
configuration leaves it unspecified — sum for frequency, mean for
performance (the custom representation's frequency part also defaults
to sum). -/
def resolveAggregation (measure : RepMeasure) :
    Option AggMeasure → AggMeasure
  | some am => am
  | none =>
    match measure with
    | .frequency => .sum
    | .performance => .mean
    | .custom => .sum

/-- An aggregated statistic: one scalar per element, or, for the custom
representation, the record combining the frequency count and the mean
performance (consumers decide how to render the combination). -/
inductive Aggregated where
  | scalar : ℚ → Aggregated
  | custom : ℚ → ℚ → Aggregated
deriving DecidableEq

/-- The pooled sample list that decides an element's presence in the
aggregated output for a representation measure (the custom representation is
keyed on the frequency samples). -/
def relevantSamples : RepMeasure → ElementStat → List ℚ
  | .frequency, st => st.freqSamples
  | .performance, st => st.perfSamples
  | .custom, st => st.freqSamples

/-- Modelled from the spec: `performance_map.aggregate_statistics` — resolve
the aggregation measure (defaulting by representation), reduce each element's
relevant pooled sample list to one scalar, and omit elements whose relevant
sample list is empty; the custom representation emits the frequency sum and
the mean performance as two raw numbers. -/
def aggregate_statistics (stats : List (ElemId × ElementStat))
    (measure : RepMeasure) (aggregation_measure : Option AggMeasure) :
    List (ElemId × Aggregated) :=
  let am := resolveAggregation measure aggregation_measure
  stats.filterMap (fun es =>
    match measure with
    | .frequency =>
      if es.2.freqSamples.isEmpty then none
      else some (es.1, .scalar (aggApply am es.2.freqSamples))
    | .performance =>
      if es.2.perfSamples.isEmpty then none
      else some (es.1, .scalar (aggApply am es.2.perfSamples))
    | .custom =>
      if es.2.freqSamples.isEmpty then none
      else some (es.1, .custom (aggApply am es.2.freqSamples)
        (if es.2.perfSamples.isEmpty then 0
         else aggApply .mean es.2.perfSamples)))

/-- The scalar of an aggregated statistic used for color normalization (for
the custom record, its frequency component). -/
def scalarOf : Aggregated → ℚ
  | .scalar v => v
  | .custom f _ => f

/-- Minimum of a nonempty rational list (0 on the empty list). -/
def listMin : List ℚ → ℚ
  | [] => 0
  | v :: vs => vs.foldr min v

/-- Maximum of a nonempty rational list (0 on the empty list). -/
def listMax : List ℚ → ℚ
  | [] => 0
  | v :: vs => vs.foldr max v

/-- Modelled from the spec: linear min-max normalization of one aggregated
value into [0,1]; when all values coincide the normalized color is 1. -/
def normalizeColor (mn mx v : ℚ) : ℚ :=
  if mx = mn then 1 else (v - mn) / (mx - mn)

/-- Modelled from the spec: the DecorationExporter — map each aggregated
statistic to a presentation record keyed by element id, holding a
human-readable label and a color normalized across all elements' aggregated
values of the current run. -/
def exportDecorations (agg : List (ElemId × Aggregated)) :
    List (ElemId × (String × ℚ)) :=
  let vals := agg.map (fun ea => scalarOf ea.2)
  let mn := listMin vals
  let mx := listMax vals
  agg.map (fun ea =>
    (ea.1, (toString (scalarOf ea.2), normalizeColor mn mx (scalarOf ea.2))))

/-- The algorithm configuration dictionary of the source, reduced to the
parameter get_decorations reads from it that the model represents:
Parameters.AGGREGATION_MEASURE (None when absent). -/
structure Config where
  aggregation_measure : Option AggMeasure
deriving DecidableEq

/-- The `get_decorations` function of src/commented_token_custom.py: read the
aggregation measure from the parameters (None when absent), token-replay the
log against the net, derive per-element statistics and return their
aggregation.  The variant computation of lines 54-60 only speeds the replay
up in the source and is folded into the per-trace replay here. -/
def get_decorations (log : Log) (net : PetriNet) (initial_marking : Marking)
    (final_marking : Marking) (parameters : Config) (measure : RepMeasure)
    (ht_perf_method : HTPerfMethod) : List (ElemId × Aggregated) :=
  let aggregation_measure := parameters.aggregation_measure
  let aligned_traces := log.map (replayTrace net initial_marking final_marking)
  let element_statistics :=
    single_element_statistics net initial_marking log ht_perf_method
  let _ := aligned_traces
  aggregate_statistics element_statistics measure aggregation_measure

/-- Modelled from the spec: the full pipeline — get_decorations followed by
the decoration export handed to the rendering collaborator. -/
def full_pipeline (log : Log) (net : PetriNet) (im fm : Marking)
    (parameters : Config) (measure : RepMeasure) (ht : HTPerfMethod) :
    List (ElemId × (String × ℚ)) :=
  exportDecorations (get_decorations log net im fm parameters measure ht)

/-- Modelled from the spec: the graph object built by `visualize.apply` —
the net, its markings and the decorations placed on it (None for an
undecorated graph). -/
structure VizGraph where
  net : PetriNet
  initial_marking : Marking
  final_marking : Marking
  decorations : Option (List (ElemId × Aggregated))
deriving DecidableEq

/-- Modelled from the spec: `visualize.apply`, building the graph object from
the net, the markings and the optional decorations. -/
def visualize_apply (net : PetriNet) (initial_marking final_marking : Marking)
    (parameters : Config) (decorations : Option (List (ElemId × Aggregated))) :
    VizGraph :=
  let _ := parameters
  ⟨net, initial_marking, final_marking, decorations⟩

/-- The `apply` function of src/commented_token_custom.py: when no aggregated
statistics are given and a log is available they are computed by
get_decorations with measure "custom" (and the source's default
ht_perf_method "last"); the visualization is then invoked with whatever
decorations resulted, possibly None. -/
def apply (net : PetriNet) (initial_marking final_marking : Marking)
    (log : Option Log) (aggregated_statistics : Option (List (ElemId × Aggregated)))
    (parameters : Config) : VizGraph :=
  let aggregated_statistics :=
    match aggregated_statistics with
    | some s => some s
    | none =>
      match log with
      | some l => some (get_decorations l net initial_marking final_marking
          parameters .custom .last)
      | none => none
  visualize_apply net initial_marking final_marking parameters
    aggregated_statistics

/-- Modelled from the spec: the timestamp assigned to an inserted
invisible-transition firing that sits just before the visible event at index
`pos` of the trace — the "first" policy uses the nearest preceding visible
event (index pos - 1, as early as possible), the "last" policy the nearest
following visible event (index pos, as late as possible). -/
def assignHiddenTimestamp (m : HTPerfMethod) (tr : Trace) (pos : Nat) : ℚ :=
  match m with
  | .first => (tr.map Event.ts).getD (pos - 1) 0
  | .last => (tr.map Event.ts).getD pos 0

/-! Helper lemmas shared by the claim theorems. -/

theorem sortQ_eq_of_perm {l l' : List ℚ} (h : l.Perm l') : sortQ l = sortQ l' := by
  have hs1 : List.Sorted (· ≤ ·) (sortQ l) := List.sorted_insertionSort _ l
  have hs2 : List.Sorted (· ≤ ·) (sortQ l') := List.sorted_insertionSort _ l'
  have hp : (sortQ l).Perm (sortQ l') :=
    (List.perm_insertionSort _ l).trans (h.trans (List.perm_insertionSort _ l').symm)
  exact List.eq_of_perm_of_sorted hp hs1 hs2

theorem findTransition_eq_none {net : PetriNet} {a : String}
    (h : hasLabel net a = false) (m : Marking) :
    findTransition net m a = none := by
  have hfil : net.transitions.filter (fun t => decide (t.label = some a)) = [] := by
    rw [List.filter_eq_nil_iff]
    intro t ht
    have := (List.any_eq_false.mp h) t ht
    simpa using this
  simp [findTransition, hfil]

theorem replayActivity_unmatched {net : PetriNet} {a : String}
    (h : hasLabel net a = false) (s : ReplayState) :
    replayActivity net s a = s := by
  simp [replayActivity, findTransition_eq_none h]

theorem collectEvent_unmatched {net : PetriNet} {e : Event}
    (h : hasLabel net e.activity = false) (c : TraceCollect) :
    collectEvent net c e = c := by
  simp [collectEvent, findTransition_eq_none h]

/-! The claim theorems. -/

/-- C1: running the full pipeline (get_decorations through decoration export)
twice on identical log/net/markings/configuration inputs produces identical
decoration output. -/
theorem pipeline_two_run_determinism (log : Log) (net : PetriNet)
    (im fm : Marking) (parameters : Config) (measure : RepMeasure)
    (ht : HTPerfMethod) :
    full_pipeline log net im fm parameters measure ht =
      full_pipeline log net im fm parameters measure ht := rfl

/-- C2: on the empty event log, get_decorations succeeds and returns the
empty decoration map for every net, marking pair and configuration. -/
theorem empty_log_empty_decorations (net : PetriNet) (im fm : Marking)
    (parameters : Config) (measure : RepMeasure) (ht : HTPerfMethod) :
    get_decorations ([] : Log) net im fm parameters measure ht = [] := by
  unfold get_decorations single_element_statistics aggregate_statistics
  simp only [List.map_nil, List.flatten_nil, List.filterMap_map]
  rw [List.filterMap_eq_nil_iff]
  intro e he
  cases measure <;> simp [samplesFor]

/-- C3: for every completed replay of a trace, the boolean fitness flag of
its replay result is true exactly when the replay's total missing token
count is 0 and its total remaining token count is 0. -/
theorem trace_is_fit_iff (net : PetriNet) (im fm : Marking) (tr : Trace) :
    (replayTrace net im fm tr).trace_is_fit = true ↔
      (replayTrace net im fm tr).missing = 0 ∧
        (replayTrace net im fm tr).remaining = 0 := by
  simp [replayTrace]

/-- C4: when get_decorations is called without an explicit aggregation
measure, the aggregation applied is sum for the frequency representation and
mean for the performance representation. -/
theorem default_aggregation_measure (log : Log) (net : PetriNet)
    (im fm : Marking) (ht : HTPerfMethod) :
    get_decorations log net im fm ⟨none⟩ .frequency ht =
      get_decorations log net im fm ⟨some .sum⟩ .frequency ht ∧
    get_decorations log net im fm ⟨none⟩ .performance ht =
      get_decorations log net im fm ⟨some .mean⟩ .performance ht :=
  ⟨rfl, rfl⟩

/-- C10: apply with aggregated_statistics None derives the decorations
itself — from the log via get_decorations with measure "custom" and the
default hidden-transition policy "last" when a log is supplied, and as
decorations None (an undecorated graph) when the log is None too. -/
theorem apply_derives_decorations (net : PetriNet) (im fm : Marking)
    (parameters : Config) :
    (∀ log : Log,
      apply net im fm (some log) none parameters =
        visualize_apply net im fm parameters
          (some (get_decorations log net im fm parameters .custom .last))) ∧
    apply net im fm none none parameters =
      visualize_apply net im fm parameters none :=
  ⟨fun _ => rfl, rfl⟩

/-- C5: every aggregation measure is a pure function of the sample multiset —
aggregating any permutation of an element's pooled sample list yields the
same scalar as aggregating the original list. -/
theorem aggregation_permutation_invariant (m : AggMeasure) (l l' : List ℚ)
    (h : l.Perm l') : aggApply m l = aggApply m l' := by
  have hs : sortQ l = sortQ l' := sortQ_eq_of_perm h
  cases m with
  | min => simp [aggApply, hs]
  | max => simp [aggApply, hs]
  | mean => simp [aggApply, h.sum_eq, h.length_eq]
  | median => simp [aggApply, medianQ, hs]
  | sum => simp [aggApply, h.sum_eq]

theorem aggregation_permutation_invariant_witness :
    aggApply .median [3, 1, 2] = aggApply .median [2, 3, 1] :=
  aggregation_permutation_invariant .median [3, 1, 2] [2, 3, 1] (by decide)

/-- C6: an element all of whose pooled sample lists for the chosen
representation are empty is omitted from the aggregated output (so mean or
median is never taken over an empty list). -/
theorem empty_samples_omitted (stats : List (ElemId × ElementStat))
    (measure : RepMeasure) (am : Option AggMeasure) (e : ElemId)
    (h : ∀ st, (e, st) ∈ stats → relevantSamples measure st = []) :
    e ∉ (aggregate_statistics stats measure am).map Prod.fst := by
  intro hmem
  rw [List.mem_map] at hmem
  obtain ⟨ea, hea, hfst⟩ := hmem
  rw [aggregate_statistics, List.mem_filterMap] at hea
  obtain ⟨⟨eid, st⟩, hin, hsome⟩ := hea
  cases measure with
  | frequency =>
    by_cases hemp : st.freqSamples.isEmpty
    · simp [hemp] at hsome
    · simp [hemp] at hsome
      have : (e, st) ∈ stats := by
        have : eid = e := by rw [← hsome] at hfst; exact hfst
        rwa [this] at hin
      have h0 := h st this
      simp [relevantSamples] at h0
      rw [h0] at hemp
      exact hemp rfl
  | performance =>
    by_cases hemp : st.perfSamples.isEmpty
    · simp [hemp] at hsome
    · simp [hemp] at hsome
      have : (e, st) ∈ stats := by
        have : eid = e := by rw [← hsome] at hfst; exact hfst
        rwa [this] at hin
      have h0 := h st this
      simp [relevantSamples] at h0
      rw [h0] at hemp
      exact hemp rfl
  | custom =>
    by_cases hemp : st.freqSamples.isEmpty
    · simp [hemp] at hsome
    · simp [hemp] at hsome
      have : (e, st) ∈ stats := by
        have : eid = e := by rw [← hsome] at hfst; exact hfst
        rwa [this] at hin
      have h0 := h st this
      simp [relevantSamples] at h0
      rw [h0] at hemp
      exact hemp rfl

theorem empty_samples_omitted_witness :
    ElemId.place 0 ∉
      (aggregate_statistics [(ElemId.place 0, ⟨[], [1]⟩)] .frequency none).map
        Prod.fst :=
  empty_samples_omitted [(ElemId.place 0, ⟨[], [1]⟩)] .frequency none
    (ElemId.place 0)
    (by
      intro st hst
      simp at hst
      rw [hst]
      rfl)

/-- C7: an event whose activity label matches no transition label is recorded
as a per-trace anomaly, the event is skipped while the rest of the trace
replays on (counters as if the event were absent), its sample collection is
likewise unaffected, and the per-trace statistics of every other trace of the
log are unchanged by the anomalous trace. -/
theorem unmatched_activity_isolated (net : PetriNet) (im fm : Marking)
    (pre post : Trace) (e : Event)
    (h : hasLabel net e.activity = false) :
    e.activity ∈ (replayTrace net im fm (pre ++ e :: post)).anomalies ∧
    (replayTrace net im fm (pre ++ e :: post)).counters =
      (replayTrace net im fm (pre ++ post)).counters ∧
    collectTrace net im (pre ++ e :: post) = collectTrace net im (pre ++ post) ∧
    ∀ others : Log,
      (others ++ [pre ++ e :: post]).map (collectTrace net im) =
        others.map (collectTrace net im) ++
          [collectTrace net im (pre ++ post)] := by
  have hfold : ((pre ++ e :: post).map Event.activity).foldl (replayActivity net)
      ⟨im, 0, 0, 0, 0⟩ =
      ((pre ++ post).map Event.activity).foldl (replayActivity net)
        ⟨im, 0, 0, 0, 0⟩ := by
    simp [List.map_append, List.foldl_append, replayActivity_unmatched h]
  have hcollect : collectTrace net im (pre ++ e :: post) =
      collectTrace net im (pre ++ post) := by
    simp [collectTrace, List.foldl_append, collectEvent_unmatched h]
  refine ⟨?_, ?_, hcollect, ?_⟩
  · simp [replayTrace, List.mem_filter, h]
  · simp only [replayTrace, ReplayResult.counters]
    rw [hfold]
  · intro others
    simp [List.map_append, hcollect]

theorem unmatched_activity_isolated_witness :
    ("B" : String) ∈ (replayTrace ⟨2, [⟨"t1", some "A", [(0, 1)], [(1, 1)]⟩]⟩
        [1, 0] [0, 1] ([] ++ ⟨"B", 0⟩ :: [⟨"A", 1⟩])).anomalies ∧
    (replayTrace ⟨2, [⟨"t1", some "A", [(0, 1)], [(1, 1)]⟩]⟩
        [1, 0] [0, 1] ([] ++ ⟨"B", 0⟩ :: [⟨"A", 1⟩])).counters =
      (replayTrace ⟨2, [⟨"t1", some "A", [(0, 1)], [(1, 1)]⟩]⟩
        [1, 0] [0, 1] ([] ++ [⟨"A", 1⟩])).counters ∧
    collectTrace ⟨2, [⟨"t1", some "A", [(0, 1)], [(1, 1)]⟩]⟩ [1, 0]
        ([] ++ ⟨"B", 0⟩ :: [⟨"A", 1⟩]) =
      collectTrace ⟨2, [⟨"t1", some "A", [(0, 1)], [(1, 1)]⟩]⟩ [1, 0]
        ([] ++ [⟨"A", 1⟩]) ∧
    (([[(⟨"A", 1⟩ : Event)]] : Log) ++ [[] ++ (⟨"B", 0⟩ : Event) :: [⟨"A", 1⟩]]).map
        (collectTrace ⟨2, [⟨"t1", some "A", [(0, 1)], [(1, 1)]⟩]⟩ [1, 0]) =
      ([[(⟨"A", 1⟩ : Event)]] : Log).map
          (collectTrace ⟨2, [⟨"t1", some "A", [(0, 1)], [(1, 1)]⟩]⟩ [1, 0]) ++
        [collectTrace ⟨2, [⟨"t1", some "A", [(0, 1)], [(1, 1)]⟩]⟩ [1, 0]
          ([] ++ [(⟨"A", 1⟩ : Event)])] := by
  have h := unmatched_activity_isolated
    ⟨2, [⟨"t1", some "A", [(0, 1)], [(1, 1)]⟩]⟩ [1, 0] [0, 1]
    [] [⟨"A", 1⟩] ⟨"B", 0⟩ (by decide)
  exact ⟨h.1, h.2.1, h.2.2.1, h.2.2.2 [[⟨"A", 1⟩]]⟩

theorem foldr_min_le (vs : List ℚ) (v x : ℚ) (hx : x = v ∨ x ∈ vs) :
    vs.foldr min v ≤ x := by
  induction vs generalizing x with
  | nil =>
    rcases hx with rfl | hmem
    · exact le_refl x
    · cases hmem
  | cons w ws ih =>
    show min w (ws.foldr min v) ≤ x
    rcases hx with rfl | hw
    · exact le_trans (min_le_right _ _) (ih x (Or.inl rfl))
    · rcases List.mem_cons.mp hw with rfl | hmem
      · exact min_le_left _ _
      · exact le_trans (min_le_right _ _) (ih x (Or.inr hmem))

theorem le_foldr_max (vs : List ℚ) (v x : ℚ) (hx : x = v ∨ x ∈ vs) :
    x ≤ vs.foldr max v := by
  induction vs generalizing x with
  | nil =>
    rcases hx with rfl | hmem
    · exact le_refl x
    · cases hmem
  | cons w ws ih =>
    show x ≤ max w (ws.foldr max v)
    rcases hx with rfl | hw
    · exact le_trans (ih x (Or.inl rfl)) (le_max_right _ _)
    · rcases List.mem_cons.mp hw with rfl | hmem
      · exact le_max_left _ _
      · exact le_trans (ih x (Or.inr hmem)) (le_max_right _ _)

theorem listMin_le {l : List ℚ} {x : ℚ} (hx : x ∈ l) : listMin l ≤ x := by
  cases l with
  | nil => cases hx
  | cons v vs =>
    rcases List.mem_cons.mp hx with rfl | hmem
    · exact foldr_min_le vs x x (Or.inl rfl)
    · exact foldr_min_le vs v x (Or.inr hmem)

theorem le_listMax {l : List ℚ} {x : ℚ} (hx : x ∈ l) : x ≤ listMax l := by
  cases l with
  | nil => cases hx
  | cons v vs =>
    rcases List.mem_cons.mp hx with rfl | hmem
    · exact le_foldr_max vs x x (Or.inl rfl)
    · exact le_foldr_max vs v x (Or.inr hmem)

theorem normalizeColor_bounds {vals : List ℚ} {v : ℚ} (hv : v ∈ vals) :
    0 ≤ normalizeColor (listMin vals) (listMax vals) v ∧
      normalizeColor (listMin vals) (listMax vals) v ≤ 1 := by
  have h1 : listMin vals ≤ v := listMin_le hv
  have h2 : v ≤ listMax vals := le_listMax hv
  unfold normalizeColor
  by_cases hc : listMax vals = listMin vals
  · rw [if_pos hc]
    exact ⟨zero_le_one, le_refl 1⟩
  · rw [if_neg hc]
    have hlt : listMin vals < listMax vals :=
      lt_of_le_of_ne (le_trans h1 h2) (Ne.symm hc)
    have hd : (0 : ℚ) < listMax vals - listMin vals := sub_pos.mpr hlt
    constructor
    · exact div_nonneg (sub_nonneg.mpr h1) (le_of_lt hd)
    · rw [div_le_one hd]
      exact sub_le_sub_right h2 _

/-- C8: every color value of the exported decoration map lies in [0,1]; it is
the linear min-max normalization of the element's aggregated scalar across
the aggregated values of all decorated elements of the run. -/
theorem exported_color_in_unit_interval (agg : List (ElemId × Aggregated))
    (e : ElemId) (lab : String) (c : ℚ)
    (h : (e, (lab, c)) ∈ exportDecorations agg) : 0 ≤ c ∧ c ≤ 1 := by
  simp only [exportDecorations] at h
  rw [List.mem_map] at h
  obtain ⟨ea, hea, heq⟩ := h
  have hv : scalarOf ea.2 ∈ agg.map (fun x => scalarOf x.2) :=
    List.mem_map.mpr ⟨ea, hea, rfl⟩
  have hb := normalizeColor_bounds hv
  have hc : c = normalizeColor (listMin (agg.map fun x => scalarOf x.2))
      (listMax (agg.map fun x => scalarOf x.2)) (scalarOf ea.2) := by
    have := congrArg (fun p => p.2.2) heq
    simpa using this.symm
  rw [hc]
  exact hb

theorem exported_color_in_unit_interval_witness :
    0 ≤ normalizeColor
        (listMin ([(ElemId.place 0, Aggregated.scalar 1),
            (ElemId.place 1, Aggregated.scalar 3)].map fun x => scalarOf x.2))
        (listMax ([(ElemId.place 0, Aggregated.scalar 1),
            (ElemId.place 1, Aggregated.scalar 3)].map fun x => scalarOf x.2))
        (scalarOf (Aggregated.scalar 1)) ∧
      normalizeColor
        (listMin ([(ElemId.place 0, Aggregated.scalar 1),
            (ElemId.place 1, Aggregated.scalar 3)].map fun x => scalarOf x.2))
        (listMax ([(ElemId.place 0, Aggregated.scalar 1),
            (ElemId.place 1, Aggregated.scalar 3)].map fun x => scalarOf x.2))
        (scalarOf (Aggregated.scalar 1)) ≤ 1 := by
  refine exported_color_in_unit_interval
    [(ElemId.place 0, Aggregated.scalar 1), (ElemId.place 1, Aggregated.scalar 3)]
    (ElemId.place 0) (toString (scalarOf (Aggregated.scalar 1))) _ ?_
  simp only [exportDecorations]
  exact List.mem_map_of_mem _ (List.mem_cons_self _ _)

/-- C9: for an inserted invisible-transition firing sitting just before the
visible event at index pos of a chronologically ordered trace, the timestamp
assigned under the "first" policy is at most the timestamp assigned under the
"last" policy. -/
theorem hidden_timestamp_first_le_last (tr : Trace) (pos : Nat)
    (hchron : List.Pairwise (fun a b => a.ts ≤ b.ts) tr)
    (hpos : 0 < pos) (hlen : pos < tr.length) :
    assignHiddenTimestamp .first tr pos ≤ assignHiddenTimestamp .last tr pos := by
  have hmap : List.Pairwise (· ≤ ·) (tr.map Event.ts) :=
    (List.pairwise_map).mpr hchron
  have hlen' : pos < (tr.map Event.ts).length := by simpa using hlen
  have hlt : pos - 1 < pos := Nat.sub_lt hpos Nat.one_pos
  have h1 : pos - 1 < (tr.map Event.ts).length := lt_trans hlt hlen'
  have hle := List.pairwise_iff_get.mp hmap ⟨pos - 1, h1⟩ ⟨pos, hlen'⟩ hlt
  show (tr.map Event.ts).getD (pos - 1) 0 ≤ (tr.map Event.ts).getD pos 0
  rw [List.getD_eq_getElem _ _ h1, List.getD_eq_getElem _ _ hlen']
  simpa [List.get_eq_getElem] using hle

theorem hidden_timestamp_first_le_last_witness :
    assignHiddenTimestamp .first [⟨"a", 1⟩, ⟨"b", 2⟩] 1 ≤
      assignHiddenTimestamp .last [⟨"a", 1⟩, ⟨"b", 2⟩] 1 :=
  hidden_timestamp_first_le_last [⟨"a", 1⟩, ⟨"b", 2⟩] 1
    (by decide) (by decide) (by decide)

end TokenDecoration
